import Mathlib

/-!
Verification development for the Infopigula news-scraper (`src/main.py`).

The core logic of the program is shallowly embedded below:

* `Article` mirrors the record dicts `{id, content, category}` built by
  `scrape_tab_content`.
* The text pipeline (`pyStrip`, `splitOnNl`, `normChars`, `pyStartsWith`,
  `pyOrStr`, `pyHash`) translates the Python string operations used in
  `scrape_tab_content` (`str.strip`, `str.splitlines` + `" ".join`,
  `str.startswith`, the truthiness-based `or` chains, and the built-in
  `hash` on `str`).  Python's universal-newline `splitlines` is modelled as
  splitting on the newline character, and `str.strip`'s default whitespace
  set as the ASCII whitespace characters; the built-in `hash` on strings is
  salted per interpreter process (hash randomization), which is modelled by
  the explicit `salt` parameter of `pyHash`.
* `processEl`, `selLoop` and `scrape_tab_content` embed the selector loop of
  `scrape_tab_content` (lines 149-210).  The rendered page is abstracted as
  the function `String → List Element` answering `query_selector_all`; tab
  clicking and panel resolution (lines 138-147) only choose which container
  this function represents.
* `keyMem`, `dictSet`, `dictOf`, `mergeStep`, `merge` embed the dict-based
  merge of `scrape_both_tabs` (lines 224-236), with Python's
  insertion-ordered dict modelled as an association list.
* `sectionHtml`, `renderEmail` and `send_weekly_summary` embed the weekly
  digest job (lines 314-381).  The mail capability is opaque: its outcome
  (success, `SMTPAuthenticationError`, other exception) is an input.  The
  HTML template is embedded without the surrounding indentation whitespace
  of the Python f-string, which no claim depends on.
* `save_data` embeds the atomic write of lines 69-77 as the list of file
  system states a crash could leave behind (after opening the temp file,
  after fully writing it, and after the atomic `os.replace`).
-/

namespace Infopigula

/-- One scraped article record, as built at `main.py:199-203`. -/
structure Article where
  id : String
  content : String
  category : String
deriving DecidableEq

/-- A DOM node as seen by the extraction loop: the attributes it reads
(`id`, `data-article-id`), its inner text and inner HTML, and the result of
`el.query_selector("span.news-content-data")` (text and HTML of that span,
when present). -/
structure Element where
  idAttr : Option String
  dataArticleId : Option String
  innerText : String
  innerHtml : String
  contentSpan : Option (String × String)
deriving DecidableEq

/-! ### Python string primitives -/

/-- The ASCII whitespace characters stripped by Python's `str.strip()`. -/
def pyIsSpace (c : Char) : Bool :=
  c = ' ' || c = '\t' || c = '\n' || c = '\r' || c = '\x0b' || c = '\x0c'

/-- Remove trailing whitespace characters. -/
def dropTrail (l : List Char) : List Char :=
  (l.reverse.dropWhile pyIsSpace).reverse

/-- Remove leading and trailing whitespace characters (`str.strip()`). -/
def trimChars (l : List Char) : List Char :=
  dropTrail (l.dropWhile pyIsSpace)

/-- `str.strip()` on a string. -/
def pyStrip (s : String) : String :=
  ⟨trimChars s.data⟩

/-- `str.splitlines()`, modelled as splitting on the newline character. -/
def splitOnNl : List Char → List (List Char)
  | [] => [[]]
  | c :: rest =>
    match splitOnNl rest with
    | [] => [[c]]
    | line :: more => if c = '\n' then [] :: line :: more else (c :: line) :: more

/-- `" ".join(...)` on character lists. -/
def joinWithSpace : List (List Char) → List Char
  | [] => []
  | [l] => l
  | l :: ls => l ++ ' ' :: joinWithSpace ls

/-- `" ".join(t.strip() for t in raw.splitlines() if t.strip())`
(`main.py:181`), at the character-list level. -/
def normChars (l : List Char) : List Char :=
  joinWithSpace (((splitOnNl l).map trimChars).filter (fun t => !t.isEmpty))

/-- The normalization of `main.py:181` on strings. -/
def normalizeText (s : String) : String :=
  ⟨normChars s.data⟩

/-- `s.startswith(pre)`. -/
def pyStartsWith (s pre : String) : Bool :=
  pre.data.isPrefixOf s.data

/-- Contiguous-sublist test on character lists. -/
def listHasInfix (pat : List Char) : List Char → Bool
  | [] => pat.isEmpty
  | c :: rest => pat.isPrefixOf (c :: rest) || listHasInfix pat rest

/-- Substring test, for the `"news-content-data" in sel` check at
`main.py:172`. -/
def strHasSub (s pat : String) : Bool :=
  listHasInfix pat.data s.data

/-- Python's `a or b` for an optional string `a`: `None` and the empty
string are falsy. -/
def pyOrStr (a : Option String) (b : String) : String :=
  match a with
  | some s => if s = "" then b else s
  | none => b

/-- Model of CPython's built-in `hash` on `str`: a deterministic function of
the string keyed by a per-process salt (CPython salts string hashes with a
random value chosen at interpreter start-up, unless `PYTHONHASHSEED` pins
it).  Only the facts that it is deterministic within one process and
salt-dependent across processes matter here; the concrete mixing function
stands in for siphash. -/
def pyHash (salt : Nat) (s : String) : Nat :=
  s.data.foldl (fun h c => (h * 1000003 + c.toNat) % (2 ^ 61 - 1)) (salt % (2 ^ 61 - 1))

/-! ### Content extraction (`scrape_tab_content`, `main.py:132-210`) -/

/-- The ordered selector strategies of `main.py:151-160`. -/
def candidate_selectors : List String :=
  [ "app-news-content span.news-content-data",
    "app-news-content .news-content-data",
    "app-news-content",
    ".news-container",
    ".article__item",
    "[data-article-id]",
    "app-article-item",
    ".article-item" ]

/-- `main.py:170-176`: choose the content element (the node itself when the
selector already targets the inner span, otherwise the inner span when it
exists), then `inner_text().strip() or inner_html().strip()`. -/
def elementRawText (sel : String) (el : Element) : String :=
  let pair :=
    if strHasSub sel "news-content-data" then (el.innerText, el.innerHtml)
    else
      match el.contentSpan with
      | some p => p
      | none => (el.innerText, el.innerHtml)
  let t := pyStrip pair.1
  if t = "" then pyStrip pair.2 else t

/-- `main.py:193-197`: `el.get_attribute("id") or
el.get_attribute("data-article-id") or str(abs(hash(normalized_text)))`. -/
def derivedArticleId (salt : Nat) (el : Element) (normalized : String) : String :=
  pyOrStr el.idAttr (pyOrStr el.dataArticleId (toString (pyHash salt normalized)))

/-- The body of the element loop at `main.py:169-203`: state is the pair
(articles so far, seen normalized texts so far). -/
def processEl (salt : Nat) (tab sel : String) (st : List Article × List String)
    (el : Element) : List Article × List String :=
  let rawText := elementRawText sel el
  if rawText = "" then st
  else
    let normalized := normalizeText rawText
    if normalized = "" then st
    else if pyStartsWith normalized "Codziennie o 6 rano" then st
    else if st.2.contains normalized then st
    else
      (st.1 ++ [⟨derivedArticleId salt el normalized, normalized, tab⟩],
       st.2 ++ [normalized])

/-- The selector loop of `main.py:165-206`: skip selectors matching no
elements, process matched elements, and break once the accumulated article
list is non-empty. -/
def selLoop (salt : Nat) (q : String → List Element) (tab : String) :
    List String → List Article × List String → List Article × List String
  | [], st => st
  | sel :: rest, st =>
    let els := q sel
    if els.isEmpty then selLoop salt q tab rest st
    else
      let st2 := els.foldl (processEl salt tab sel) st
      if st2.1.isEmpty then selLoop salt q tab rest st2 else st2

/-- `scrape_tab_content` (`main.py:132-210`): the container (resolved panel
or full page) is abstracted as the query function `q`. -/
def scrape_tab_content (salt : Nat) (q : String → List Element) (tab : String) :
    List Article :=
  (selLoop salt q tab candidate_selectors ([], [])).1

/-- Processing of a single selector strategy in isolation, starting from an
empty state; used to state first-match-wins. -/
def processSelector (salt : Nat) (tab sel : String) (els : List Element) :
    List Article :=
  (els.foldl (processEl salt tab sel) ([], [])).1

/-- First non-empty list in a sequence of candidate outputs (the spec's
"first success wins" combinator). -/
def firstNonEmpty : List (List Article) → List Article
  | [] => []
  | l :: rest => if l.isEmpty then firstNonEmpty rest else l

/-! ### Aggregation-store merge (`scrape_both_tabs`, `main.py:224-236`) -/

/-- `k in merged` on the association-list model of a Python dict. -/
def keyMem (d : List (String × Article)) (k : String) : Bool :=
  d.any (fun p => p.1 == k)

/-- `d[k] = v` on an insertion-ordered dict: overwrite in place when the key
exists, append otherwise. -/
def dictSet (d : List (String × Article)) (k : String) (v : Article) :
    List (String × Article) :=
  if keyMem d k then d.map (fun p => if p.1 == k then (k, v) else p)
  else d ++ [(k, v)]

/-- `{a['id']: a for a in existing_data}` (`main.py:226`). -/
def dictOf (l : List Article) : List (String × Article) :=
  l.foldl (fun d a => dictSet d a.id a) []

/-- One iteration of the loop at `main.py:228-231`. -/
def mergeStep (p : List (String × Article) × Nat) (a : Article) :
    List (String × Article) × Nat :=
  if keyMem p.1 a.id then p else (p.1 ++ [(a.id, a)], p.2 + 1)

/-- The keyed merge of `scrape_both_tabs` (`main.py:224-231`): returns the
merged records (dict values in insertion order) and `added_count`. -/
def merge (existing incoming : List Article) : List Article × Nat :=
  let r := incoming.foldl mergeStep (dictOf existing, 0)
  (r.1.map Prod.snd, r.2)

/-! ### Weekly digest job (`send_weekly_summary`, `main.py:314-381`) -/

/-- One category block of the email body (`main.py:344-345`). -/
def sectionHtml (data : List Article) (cat : String) : String :=
  String.join ((data.filter (fun a => a.category == cat)).map
    (fun a => "<p>" ++ a.content ++ "</p><hr>"))

/-- The HTML body of `main.py:347-363` (template indentation omitted). -/
def renderEmail (data : List Article) : String :=
  let polskaHtml := sectionHtml data "Polska"
  let swiatHtml := sectionHtml data "Świat"
  "<!DOCTYPE html><html><head><meta charset=\"UTF-8\"><title>Infopiguła Tygodniowe Podsumowanie</title></head><body><h1>Tygodniowe podsumowanie z Infopiguły</h1><h2>Polska</h2>"
    ++ (if polskaHtml = "" then "<p>Brak wiadomości z Polski w tym tygodniu.</p>" else polskaHtml)
    ++ "<br><h2>Świat</h2>"
    ++ (if swiatHtml = "" then "<p>Brak wiadomości ze Świata w tym tygodniu.</p>" else swiatHtml)
    ++ "</body></html>"

/-- The three distinguishable results of handing the message to yagmail
(`main.py:365-381`): success, `smtplib.SMTPAuthenticationError`, or any
other exception. -/
inductive SendOutcome where
  | success
  | authFailure
  | otherFailure
deriving DecidableEq

/-- The `last_successful_scrape` field as seen by `main.py:324-336`: absent
(missing/null), present but not ISO-parseable (`ValueError`), or parsed to a
UTC timestamp, modelled in seconds. -/
inductive ScrapeState where
  | absent
  | unparseable
  | parsed (t : Int)
deriving DecidableEq

/-- The mail settings read from the environment (`main.py:25-28`).  The
digest job reads them but never validates them: they are only passed to
yagmail inside the `try` block, so an incomplete configuration surfaces as a
send failure, not as a precondition abort. -/
structure MailConfig where
  user : Option String
  password : Option String
  recipient : Option String
deriving DecidableEq

/-- Everything `send_weekly_summary` observes: current weekday
(`datetime.weekday()`, Saturday = 5), the persisted scrape state, the
current UTC time in seconds, the loaded store, the mail configuration, and
the opaque outcome of the send attempt. -/
structure JobInput where
  weekday : Nat
  scrapeState : ScrapeState
  now : Int
  data : List Article
  mail : MailConfig
  outcome : SendOutcome
deriving DecidableEq

/-- Observable effects of one run of the digest job: the persisted store
afterwards, whether `save_data` was invoked, whether execution reached the
mail-sending `try` block, whether the send succeeded, and the rendered body
(when one was built). -/
structure JobResult where
  dataAfter : List Article
  wrote : Bool
  sendAttempted : Bool
  sent : Bool
  body : Option String
deriving DecidableEq

/-- Result of aborting before the send path: nothing written, nothing
attempted. -/
def noSend (data : List Article) : JobResult :=
  ⟨data, false, false, false, none⟩

/-- `send_weekly_summary` (`main.py:314-381`): Saturday guard, freshness
guard on the last successful scrape (absent, unparseable, or older than 7
days each abort), empty-store guard, then render and attempt the send; the
store is cleared by `save_data([])` only in the success branch, while both
exception branches only log. -/
def send_weekly_summary (inp : JobInput) : JobResult :=
  if inp.weekday ≠ 5 then noSend inp.data
  else
    match inp.scrapeState with
    | .absent => noSend inp.data
    | .unparseable => noSend inp.data
    | .parsed t =>
      if t < inp.now - 7 * 86400 then noSend inp.data
      else if inp.data.isEmpty then noSend inp.data
      else
        let html := renderEmail inp.data
        match inp.outcome with
        | .success => ⟨[], true, true, true, some html⟩
        | .authFailure => ⟨inp.data, false, true, false, some html⟩
        | .otherFailure => ⟨inp.data, false, true, false, some html⟩

/-- The completeness test the specification prescribes for the mail
configuration (sender, credential and recipient all present); stated from
the spec's words to compare against the code, which performs no such
check. -/
def mailConfigComplete (m : MailConfig) : Bool :=
  m.user.isSome && m.password.isSome && m.recipient.isSome

/-- The freshness gate actually computed by `main.py:324-336`. -/
def scrapeFreshOk (st : ScrapeState) (now : Int) : Bool :=
  match st with
  | .parsed t => if t < now - 7 * 86400 then false else true
  | _ => false

/-! ### Atomic persistence (`save_data`, `main.py:69-77`) -/

/-- Contents of a file slot: a completely written serialization of a store,
or a torn (partially written) file. -/
inductive FileContent where
  | written (data : List Article)
  | torn
deriving DecidableEq

/-- The two file-system locations `save_data` touches: the canonical
`data.json` and the temporary `data.json.tmp`. -/
structure FS where
  dataFile : Option FileContent
  tmpFile : Option FileContent
deriving DecidableEq

/-- `save_data` (`main.py:69-77`) as the sequence of file-system states a
crash could expose: mid-write of the temporary file, after the temporary
file is fully written, and after the atomic `os.replace` into the canonical
path.  A crash observes some element of this trace; the last element is the
state after a completed run. -/
def save_data (fs : FS) (data : List Article) : List FS :=
  [ { fs with tmpFile := some .torn },
    { fs with tmpFile := some (.written data) },
    { dataFile := some (.written data), tmpFile := none } ]

/-! ### Proof-support predicates -/

/-- A normalized line piece: non-empty, no surrounding whitespace, no
newline inside. -/
def GoodPiece (t : List Char) : Prop :=
  t ≠ [] ∧ (∀ c, t.head? = some c → pyIsSpace c = false) ∧
    (∀ c, t.getLast? = some c → pyIsSpace c = false) ∧ '\n' ∉ t

/-- Invariant of the extraction state `(articles, seen_texts)`: the seen set
is exactly the list of article contents, contents are pairwise distinct, and
every retained article carries the requested tab label and a non-empty,
non-promotional, normalization-fixed content. -/
def ExtractInv (tab : String) (st : List Article × List String) : Prop :=
  st.2 = st.1.map (fun a => a.content) ∧ st.2.Nodup ∧
    ∀ a ∈ st.1, a.category = tab ∧ a.content ≠ "" ∧
      pyStartsWith a.content "Codziennie o 6 rano" = false ∧
      normalizeText a.content = a.content

/-! ### Concrete inputs for witnesses and counterexamples -/

/-- Two nodes carrying the same `id` attribute but different texts. -/
def elDupOne : Element := ⟨some "dup", none, "Text one", "", none⟩

/-- Second node with the duplicated `id` attribute. -/
def elDupTwo : Element := ⟨some "dup", none, "Text two", "", none⟩

/-- Page whose primary selector matches the two duplicate-id nodes. -/
def qDupIds : String → List Element := fun sel =>
  if sel = "app-news-content span.news-content-data" then [elDupOne, elDupTwo] else []

/-- Page with one node whose text holds a double space inside one line. -/
def qDoubleSpace : String → List Element := fun sel =>
  if sel = "app-news-content span.news-content-data" then [⟨none, none, "a  b", "", none⟩] else []

/-- Page with one node providing no element identity at all. -/
def qNoIdentity : String → List Element := fun sel =>
  if sel = "app-news-content span.news-content-data" then [⟨none, none, "abc", "", none⟩] else []

/-- Page with one well-identified node whose text spans two lines. -/
def qWitness : String → List Element := fun sel =>
  if sel = "app-news-content span.news-content-data" then [⟨some "w1", none, "Hello\n world", "", none⟩] else []

/-- Sample stored article. -/
def articleA : Article := ⟨"a1", "Text A", "Polska"⟩

/-- Second sample stored article. -/
def articleB : Article := ⟨"b1", "Text B", "Świat"⟩

/-- Article whose category is not one of the rendered tabs. -/
def articleOther : Article := ⟨"c1", "Text C", "Pozytywy"⟩

/-- Saturday, fresh scrape, populated store, complete mail settings,
successful send. -/
def inputSuccess : JobInput :=
  ⟨5, .parsed 0, 0, [articleA], ⟨some "u", some "p", some "r"⟩, .success⟩

/-- Same as `inputSuccess` but the send raises the authentication error. -/
def inputAuthFail : JobInput :=
  ⟨5, .parsed 0, 0, [articleA], ⟨some "u", some "p", some "r"⟩, .authFailure⟩

/-- Saturday, fresh scrape, populated store, but a fully missing mail
configuration; the send attempt then fails generically. -/
def inputNoMail : JobInput :=
  ⟨5, .parsed 0, 0, [articleA], ⟨none, none, none⟩, .otherFailure⟩

/-- A Wednesday run: the schedule guard must abort the job. -/
def inputNotSaturday : JobInput :=
  ⟨3, .parsed 0, 0, [articleA], ⟨some "u", some "p", some "r"⟩, .success⟩

/-- A file system whose canonical store holds a committed serialization. -/
def fsCommitted : FS := ⟨some (.written [articleA]), none⟩

/-! ## Lemmas on the text pipeline -/

theorem head?_dropWhile_false (p : Char → Bool) :
    ∀ (l : List Char) (c : Char), (l.dropWhile p).head? = some c → p c = false := by
  intro l
  induction l with
  | nil => intro c h; simp [List.dropWhile] at h
  | cons a t ih =>
    intro c h
    by_cases ha : p a
    · rw [List.dropWhile_cons_of_pos ha] at h
      exact ih c h
    · rw [List.dropWhile_cons_of_neg ha] at h
      simp only [List.head?_cons, Option.some.injEq] at h
      subst h
      exact Bool.eq_false_iff.mpr ha

theorem getLast?_dropWhile_of_ne_nil (p : Char → Bool) :
    ∀ l : List Char, l.dropWhile p ≠ [] → (l.dropWhile p).getLast? = l.getLast? := by
  intro l
  induction l with
  | nil => intro h; simp [List.dropWhile] at h
  | cons a t ih =>
    intro h
    by_cases ha : p a
    · rw [List.dropWhile_cons_of_pos ha] at h ⊢
      have ht : t ≠ [] := by
        intro he
        rw [he] at h
        simp [List.dropWhile] at h
      obtain ⟨b, t2, rfl⟩ := List.exists_cons_of_ne_nil ht
      rw [List.getLast?_cons_cons]
      exact ih h
    · rw [List.dropWhile_cons_of_neg ha]

theorem dropWhile_eq_self_of_head (p : Char → Bool) :
    ∀ l : List Char, (∀ c, l.head? = some c → p c = false) → l.dropWhile p = l := by
  intro l h
  cases l with
  | nil => rfl
  | cons a t =>
    have : p a = false := h a rfl
    rw [List.dropWhile_cons_of_neg (by simp [this])]

theorem trimChars_head (l : List Char) (c : Char)
    (h : (trimChars l).head? = some c) : pyIsSpace c = false := by
  unfold trimChars dropTrail at h
  rw [List.head?_reverse] at h
  have hne : (l.dropWhile pyIsSpace).reverse.dropWhile pyIsSpace ≠ [] := by
    intro he
    rw [he] at h
    simp at h
  rw [getLast?_dropWhile_of_ne_nil _ _ hne, List.getLast?_reverse] at h
  exact head?_dropWhile_false _ _ _ h

theorem trimChars_getLast (l : List Char) (c : Char)
    (h : (trimChars l).getLast? = some c) : pyIsSpace c = false := by
  unfold trimChars dropTrail at h
  rw [List.getLast?_reverse] at h
  exact head?_dropWhile_false _ _ _ h

theorem trimChars_eq_self (l : List Char)
    (h1 : ∀ c, l.head? = some c → pyIsSpace c = false)
    (h2 : ∀ c, l.getLast? = some c → pyIsSpace c = false) : trimChars l = l := by
  unfold trimChars dropTrail
  rw [dropWhile_eq_self_of_head _ l h1]
  rw [dropWhile_eq_self_of_head _ l.reverse
    (fun c hc => h2 c (by rwa [List.head?_reverse] at hc))]
  exact List.reverse_reverse l

theorem mem_trimChars {c : Char} {l : List Char} (h : c ∈ trimChars l) : c ∈ l := by
  unfold trimChars dropTrail at h
  rw [List.mem_reverse] at h
  have h2 := (List.dropWhile_sublist (l := (l.dropWhile pyIsSpace).reverse) pyIsSpace).subset h
  rw [List.mem_reverse] at h2
  exact (List.dropWhile_sublist pyIsSpace).subset h2

theorem splitOnNl_ne_nil : ∀ l : List Char, splitOnNl l ≠ [] := by
  intro l
  induction l with
  | nil => simp [splitOnNl]
  | cons c t ih =>
    unfold splitOnNl
    cases h : splitOnNl t with
    | nil => simp
    | cons line more =>
      dsimp only
      split <;> simp

theorem splitOnNl_no_nl : ∀ l : List Char, ∀ piece ∈ splitOnNl l, '\n' ∉ piece := by
  intro l
  induction l with
  | nil =>
    intro piece hp
    simp [splitOnNl] at hp
    subst hp
    simp
  | cons c t ih =>
    intro piece hp
    unfold splitOnNl at hp
    cases h : splitOnNl t with
    | nil => exact absurd h (splitOnNl_ne_nil t)
    | cons line more =>
      rw [h] at hp
      dsimp only at hp
      by_cases hc : c = '\n'
      · rw [if_pos hc] at hp
        rcases List.mem_cons.mp hp with hp1 | hp2
        · subst hp1; simp
        · exact ih piece (h ▸ hp2)
      · rw [if_neg hc] at hp
        rcases List.mem_cons.mp hp with hp1 | hp2
        · subst hp1
          intro hm
          rcases List.mem_cons.mp hm with hm1 | hm2
          · exact hc hm1.symm
          · exact ih line (h ▸ List.mem_cons_self line more) hm2
        · exact ih piece (h ▸ List.mem_cons_of_mem line hp2)

theorem splitOnNl_of_no_nl : ∀ l : List Char, '\n' ∉ l → splitOnNl l = [l] := by
  intro l
  induction l with
  | nil => intro; rfl
  | cons c t ih =>
    intro h
    have hc : ¬ c = '\n' := fun e => h (by rw [e]; exact List.mem_cons_self _ _)
    have ht : '\n' ∉ t := fun m => h (List.mem_cons_of_mem _ m)
    unfold splitOnNl
    rw [ih ht]
    dsimp only
    rw [if_neg hc]

theorem joinWithSpace_good :
    ∀ ps : List (List Char), (∀ t ∈ ps, GoodPiece t) →
      joinWithSpace ps = [] ∨ GoodPiece (joinWithSpace ps) := by
  intro ps
  induction ps with
  | nil => intro _; left; rfl
  | cons t ts ih =>
    intro h
    right
    cases ts with
    | nil => exact h t (List.mem_cons_self _ _)
    | cons t2 ts2 =>
      have ht : GoodPiece t := h t (List.mem_cons_self _ _)
      have hrest : GoodPiece (joinWithSpace (t2 :: ts2)) := by
        rcases ih (fun u hu => h u (List.mem_cons_of_mem _ hu)) with he | hg
        · exfalso
          have ht2 : GoodPiece t2 := h t2 (by simp)
          cases ts2 with
          | nil => exact ht2.1 he
          | cons t3 ts3 =>
            rw [show joinWithSpace (t2 :: t3 :: ts3) = t2 ++ ' ' :: joinWithSpace (t3 :: ts3) from rfl] at he
            simp at he
        · exact hg
      rw [show joinWithSpace (t :: t2 :: ts2) = t ++ ' ' :: joinWithSpace (t2 :: ts2) from rfl]
      obtain ⟨htne, hth, htl, htn⟩ := ht
      obtain ⟨hrne, hrh, hrl, hrn⟩ := hrest
      refine ⟨by simp, ?_, ?_, ?_⟩
      · intro c hc
        rw [List.head?_append_of_ne_nil t htne] at hc
        exact hth c hc
      · intro c hc
        rw [List.getLast?_append] at hc
        obtain ⟨x, xs, hx⟩ := List.exists_cons_of_ne_nil hrne
        rw [hx] at hc
        rw [List.getLast?_cons_cons] at hc
        have : (x :: xs).getLast?.isSome := List.getLast?_isSome.mpr (by simp)
        obtain ⟨d, hd⟩ := Option.isSome_iff_exists.mp this
        rw [hd] at hc
        simp only [Option.or_some, Option.some.injEq] at hc
        subst hc
        exact hrl d (by rw [hx]; exact hd)
      · intro hm
        rcases List.mem_append.mp hm with hm1 | hm2
        · exact htn hm1
        · rcases List.mem_cons.mp hm2 with hm3 | hm4
          · exact absurd hm3 (by decide)
          · exact hrn hm4

theorem normChars_good (l : List Char) : normChars l = [] ∨ GoodPiece (normChars l) := by
  apply joinWithSpace_good
  intro t ht
  rw [List.mem_filter] at ht
  obtain ⟨htm, htne⟩ := ht
  rw [List.mem_map] at htm
  obtain ⟨q, hq, rfl⟩ := htm
  refine ⟨by simpa using htne, ?_, ?_, ?_⟩
  · exact fun c hc => trimChars_head q c hc
  · exact fun c hc => trimChars_getLast q c hc
  · exact fun hm => splitOnNl_no_nl l q hq (mem_trimChars hm)

theorem normChars_idem (l : List Char) : normChars (normChars l) = normChars l := by
  rcases normChars_good l with h | h
  · rw [h]
    rfl
  · obtain ⟨hne, hh, hl, hnl⟩ := h
    rw [show normChars (normChars l) =
      joinWithSpace (((splitOnNl (normChars l)).map trimChars).filter fun t => !t.isEmpty) from rfl]
    rw [splitOnNl_of_no_nl _ hnl]
    rw [show (([normChars l] : List (List Char)).map trimChars) = [trimChars (normChars l)] from rfl]
    rw [trimChars_eq_self _ hh hl]
    rw [show ([normChars l] : List (List Char)).filter (fun t => !t.isEmpty) = [normChars l] from by
      simp [hne]]
    rfl

theorem normalizeText_idem (s : String) :
    normalizeText (normalizeText s) = normalizeText s := by
  unfold normalizeText
  exact congrArg String.mk (normChars_idem s.data)

/-! ## Lemmas on the extraction loop -/

theorem contains_false_iff (l : List String) (a : String) :
    l.contains a = false ↔ a ∉ l := by
  simp [List.contains]

theorem processEl_inv (salt : Nat) (tab sel : String) (st : List Article × List String)
    (el : Element) (h : ExtractInv tab st) : ExtractInv tab (processEl salt tab sel st el) := by
  unfold processEl
  dsimp only
  split_ifs with h1 h2 h3 h4
  · exact h
  · exact h
  · exact h
  · exact h
  · obtain ⟨hseen, hnd, hall⟩ := h
    have hmem : normalizeText (elementRawText sel el) ∉ st.2 :=
      (contains_false_iff _ _).mp (Bool.eq_false_iff.mpr h4)
    refine ⟨?_, ?_, ?_⟩
    · rw [List.map_append, hseen]
      rfl
    · rw [List.nodup_append]
      refine ⟨hnd, List.nodup_singleton _, ?_⟩
      intro a ha hb
      rw [List.mem_singleton] at hb
      exact hmem (hb ▸ ha)
    · intro a ha
      rcases List.mem_append.mp ha with ha1 | ha2
      · exact hall a ha1
      · rw [List.mem_singleton] at ha2
        subst ha2
        exact ⟨rfl, h2, Bool.eq_false_iff.mpr h3, normalizeText_idem _⟩

theorem foldl_processEl_inv (salt : Nat) (tab sel : String) :
    ∀ (els : List Element) (st : List Article × List String),
      ExtractInv tab st → ExtractInv tab (els.foldl (processEl salt tab sel) st) := by
  intro els
  induction els with
  | nil => exact fun st h => h
  | cons el els ih => exact fun st h => ih _ (processEl_inv salt tab sel st el h)

theorem extractInv_nil (tab : String) : ExtractInv tab ([], []) :=
  ⟨rfl, List.nodup_nil, by simp⟩

theorem selLoop_inv (salt : Nat) (q : String → List Element) (tab : String) :
    ∀ (sels : List String) (st : List Article × List String),
      ExtractInv tab st → ExtractInv tab (selLoop salt q tab sels st) := by
  intro sels
  induction sels with
  | nil => exact fun st h => h
  | cons sel rest ih =>
    intro st h
    unfold selLoop
    dsimp only
    split_ifs with h1 h2
    · exact ih st h
    · exact ih _ (foldl_processEl_inv salt tab sel (q sel) st h)
    · exact foldl_processEl_inv salt tab sel (q sel) st h

theorem scrape_inv (salt : Nat) (q : String → List Element) (tab : String) :
    ExtractInv tab (selLoop salt q tab candidate_selectors ([], [])) :=
  selLoop_inv salt q tab candidate_selectors ([], []) (extractInv_nil tab)

theorem selLoop_eq_firstNonEmpty (salt : Nat) (q : String → List Element) (tab : String) :
    ∀ sels : List String,
      (selLoop salt q tab sels ([], [])).1 =
        firstNonEmpty (sels.map fun sel => processSelector salt tab sel (q sel)) := by
  intro sels
  induction sels with
  | nil => rfl
  | cons sel rest ih =>
    have e2 : processSelector salt tab sel (q sel) =
        ((q sel).foldl (processEl salt tab sel) (([], []) : List Article × List String)).1 := rfl
    rw [List.map_cons]
    rw [show firstNonEmpty (processSelector salt tab sel (q sel) ::
          rest.map fun s => processSelector salt tab s (q s)) =
        if (processSelector salt tab sel (q sel)).isEmpty then
          firstNonEmpty (rest.map fun s => processSelector salt tab s (q s))
        else processSelector salt tab sel (q sel) from rfl]
    rw [show selLoop salt q tab (sel :: rest) ([], []) =
        if (q sel).isEmpty then selLoop salt q tab rest ([], [])
        else
          (if ((q sel).foldl (processEl salt tab sel) ([], [])).1.isEmpty then
            selLoop salt q tab rest ((q sel).foldl (processEl salt tab sel) ([], []))
          else (q sel).foldl (processEl salt tab sel) ([], [])) from rfl]
    by_cases h1 : (q sel).isEmpty
    · rw [if_pos h1]
      have hq : q sel = [] := List.isEmpty_iff.mp h1
      rw [e2, hq]
      simp only [List.foldl_nil]
      have he : (([], []) : List Article × List String).1.isEmpty = true := rfl
      rw [if_pos he]
      exact ih
    · rw [if_neg h1, e2]
      by_cases h2 : ((q sel).foldl (processEl salt tab sel)
          (([], []) : List Article × List String)).1.isEmpty
      · rw [if_pos h2, if_pos h2]
        have hinv := foldl_processEl_inv salt tab sel (q sel) ([], []) (extractInv_nil tab)
        have h21 : ((q sel).foldl (processEl salt tab sel)
            (([], []) : List Article × List String)).1 = [] := List.isEmpty_iff.mp h2
        have h22 : ((q sel).foldl (processEl salt tab sel)
            (([], []) : List Article × List String)).2 = [] := by
          rw [hinv.1, h21]
          rfl
        have hst : (q sel).foldl (processEl salt tab sel)
            (([], []) : List Article × List String) = ([], []) := Prod.ext h21 h22
        rw [hst]
        exact ih
      · rw [if_neg h2, if_neg h2]

/-! ## Claims C5, C6, C8, C9 (extraction) -/

/-- C5 counterexample: two matched nodes carrying the same `id` attribute
but different texts both survive the text-level dedup, so the extraction
returns two records bearing the same id — the claimed id-uniqueness of one
extraction call fails. -/
theorem claim_C5_counterexample :
    (scrape_tab_content 0 qDupIds "Polska").map (fun a => a.id) = ["dup", "dup"] ∧
      ¬ ((scrape_tab_content 0 qDupIds "Polska").map (fun a => a.id)).Nodup := by
  constructor
  · decide
  · decide

/-- C5 (amended): every record returned by one extraction call carries the
requested tab label as its category, and no two returned records share the
same (normalized) content; ids are only as unique as the element-provided
identities, so they may repeat. -/
theorem claim_C5_amended (salt : Nat) (q : String → List Element) (tab : String) :
    (∀ a ∈ scrape_tab_content salt q tab, a.category = tab) ∧
      ((scrape_tab_content salt q tab).map (fun a => a.content)).Nodup := by
  obtain ⟨hseen, hnd, hall⟩ := scrape_inv salt q tab
  constructor
  · exact fun a ha => (hall a ha).1
  · unfold scrape_tab_content
    rw [← hseen]
    exact hnd

/-- C5 witness: on the concrete duplicate-id page, the two theorem
components evaluate as stated. -/
theorem claim_C5_witness :
    (Article.mk "dup" "Text one" "Polska").category = "Polska" ∧
      ((scrape_tab_content 0 qDupIds "Polska").map (fun a => a.content)).Nodup :=
  ⟨(claim_C5_amended 0 qDupIds "Polska").1 ⟨"dup", "Text one", "Polska"⟩ (by decide),
   (claim_C5_amended 0 qDupIds "Polska").2⟩

/-- C6: the extraction output is exactly the output of the first selector
strategy (in the fixed order) whose processing retains at least one record;
strategies retaining nothing fall through, and no union across strategies is
ever formed. -/
theorem claim_C6 (salt : Nat) (q : String → List Element) (tab : String) :
    scrape_tab_content salt q tab =
      firstNonEmpty (candidate_selectors.map fun sel => processSelector salt tab sel (q sel)) :=
  selLoop_eq_firstNonEmpty salt q tab candidate_selectors

/-- C8 counterexample: a node whose single-line text holds two consecutive
spaces is retained with both spaces intact — internal whitespace inside a
line is not collapsed to single spaces, only line boundaries are. -/
theorem claim_C8_counterexample :
    (scrape_tab_content 0 qDoubleSpace "Polska").map (fun a => a.content) = ["a  b"] ∧
      strHasSub "a  b" "  " = true ∧ normalizeText "a  b" ≠ "a b" := by
  refine ⟨by decide, by decide, by decide⟩

/-- C8 (amended): every retained record's content is non-empty, does not
start with the promotional prefix, and is a fixed point of the line-based
normalization (lines trimmed, empty lines dropped, joined by single spaces —
whitespace inside a line is preserved); duplicate texts within the call are
discarded, so contents are pairwise distinct. -/
theorem claim_C8_amended (salt : Nat) (q : String → List Element) (tab : String) :
    (∀ a ∈ scrape_tab_content salt q tab,
        a.content ≠ "" ∧ pyStartsWith a.content "Codziennie o 6 rano" = false ∧
          normalizeText a.content = a.content) ∧
      ((scrape_tab_content salt q tab).map (fun a => a.content)).Nodup := by
  obtain ⟨hseen, hnd, hall⟩ := scrape_inv salt q tab
  constructor
  · exact fun a ha => ⟨(hall a ha).2.1, (hall a ha).2.2.1, (hall a ha).2.2.2⟩
  · unfold scrape_tab_content
    rw [← hseen]
    exact hnd

/-- C8 witness: the record extracted from the two-line sample page
satisfies the amended guarantees. -/
theorem claim_C8_witness :
    ("Hello world" : String) ≠ "" ∧
      pyStartsWith "Hello world" "Codziennie o 6 rano" = false ∧
      normalizeText "Hello world" = "Hello world" :=
  (claim_C8_amended 0 qWitness "Polska").1 ⟨"w1", "Hello world", "Polska"⟩ (by decide)

/-- C9 counterexample: the same page content, extracted in two runs with
different process hash seeds, yields records with identical normalized text
but different derived ids — cross-process id stability fails because the
fallback uses the runtime's salted string hash. -/
theorem claim_C9_counterexample :
    (scrape_tab_content 0 qNoIdentity "Polska").map (fun a => a.id) ≠
        (scrape_tab_content 1 qNoIdentity "Polska").map (fun a => a.id) ∧
      (scrape_tab_content 0 qNoIdentity "Polska").map (fun a => a.content) =
        (scrape_tab_content 1 qNoIdentity "Polska").map (fun a => a.content) := by
  constructor
  · decide
  · decide

/-- C9 (amended): within one process (one hash seed), the fallback id of a
node providing no element identity is a function of the normalized text
alone — two nodes with equal normalized text get equal derived ids, whatever
their other fields. -/
theorem claim_C9_amended (salt : Nat) (el1 el2 : Element) (n1 n2 : String)
    (h1 : el1.idAttr = none ∨ el1.idAttr = some "")
    (h2 : el1.dataArticleId = none ∨ el1.dataArticleId = some "")
    (h3 : el2.idAttr = none ∨ el2.idAttr = some "")
    (h4 : el2.dataArticleId = none ∨ el2.dataArticleId = some "")
    (hn : n1 = n2) :
    derivedArticleId salt el1 n1 = derivedArticleId salt el2 n2 := by
  subst hn
  have e : ∀ el : Element, el.idAttr = none ∨ el.idAttr = some "" →
      el.dataArticleId = none ∨ el.dataArticleId = some "" →
      derivedArticleId salt el n1 = toString (pyHash salt n1) := by
    intro el ha hb
    unfold derivedArticleId pyOrStr
    rcases ha with ha | ha <;> rcases hb with hb | hb <;> rw [ha, hb] <;> simp
  rw [e el1 h1 h2, e el2 h3 h4]

/-- C9 witness: two elements with falsy identity attributes and otherwise
different fields receive the same derived id for the same normalized
text. -/
theorem claim_C9_witness :
    derivedArticleId 0 ⟨none, none, "abc", "", none⟩ "abc" =
      derivedArticleId 0 ⟨some "", some "", "xyz", "q", none⟩ "abc" :=
  claim_C9_amended 0 ⟨none, none, "abc", "", none⟩ ⟨some "", some "", "xyz", "q", none⟩
    "abc" "abc" (Or.inl rfl) (Or.inl rfl) (Or.inr rfl) (Or.inr rfl) rfl

/-! ## Lemmas on the keyed merge -/

theorem mergeStep_eq (d : List (String × Article)) (n : Nat) (a : Article) :
    mergeStep (d, n) a = if keyMem d a.id then (d, n) else (d ++ [(a.id, a)], n + 1) := rfl

theorem keyMem_iff (d : List (String × Article)) (k : String) :
    keyMem d k = true ↔ k ∈ d.map Prod.fst := by
  simp [keyMem, List.any_eq_true, List.mem_map]

theorem keyMem_false_iff (d : List (String × Article)) (k : String) :
    keyMem d k = false ↔ k ∉ d.map Prod.fst := by
  rw [Bool.eq_false_iff]
  exact not_congr (keyMem_iff d k)

theorem keyMem_append (d1 d2 : List (String × Article)) (k : String) :
    keyMem (d1 ++ d2) k = (keyMem d1 k || keyMem d2 k) := by
  simp [keyMem]

theorem dictSet_fst_of_mem (d : List (String × Article)) (k : String) (v : Article)
    (h : keyMem d k = true) : (dictSet d k v).map Prod.fst = d.map Prod.fst := by
  unfold dictSet
  rw [if_pos h, List.map_map]
  apply List.map_congr_left
  intro p _
  by_cases hpk : p.1 = k
  · simp [hpk]
  · simp [hpk]

theorem dictSet_fst_of_not_mem (d : List (String × Article)) (k : String) (v : Article)
    (h : keyMem d k = false) : (dictSet d k v).map Prod.fst = d.map Prod.fst ++ [k] := by
  unfold dictSet
  rw [if_neg (by simp [h]), List.map_append]
  rfl

theorem foldl_dictSet_eq_append :
    ∀ (l : List Article) (d : List (String × Article)),
      (∀ a ∈ l, keyMem d a.id = false) → ((l.map fun a => a.id).Nodup) →
      l.foldl (fun d a => dictSet d a.id a) d = d ++ (l.map fun a => (a.id, a)) := by
  intro l
  induction l with
  | nil => intro d _ _; simp
  | cons a l ih =>
    intro d hfresh hnd
    rw [List.foldl_cons]
    rw [List.map_cons, List.nodup_cons] at hnd
    obtain ⟨hna, hndl⟩ := hnd
    have ha : keyMem d a.id = false := hfresh a (List.mem_cons_self _ _)
    have hset : dictSet d a.id a = d ++ [(a.id, a)] := by
      unfold dictSet
      rw [if_neg (by simp [ha])]
    rw [hset]
    rw [ih (d ++ [(a.id, a)]) ?_ hndl]
    · rw [List.map_cons, List.append_assoc]
      rfl
    · intro b hb
      rw [keyMem_append]
      have h1 : keyMem d b.id = false := hfresh b (List.mem_cons_of_mem _ hb)
      have h2 : keyMem [(a.id, a)] b.id = false := by
        have : a.id ≠ b.id := by
          intro he
          exact hna (he ▸ List.mem_map_of_mem (fun a => a.id) hb)
        simp [keyMem, this]
      rw [h1, h2]
      rfl

theorem dictOf_of_nodup (l : List Article) (h : (l.map fun a => a.id).Nodup) :
    dictOf l = l.map fun a => (a.id, a) := by
  unfold dictOf
  rw [foldl_dictSet_eq_append l [] (fun a _ => rfl) h]
  rfl

theorem foldl_mergeStep_append :
    ∀ (inc : List Article) (d : List (String × Article)) (n : Nat),
      ∃ ext : List (String × Article),
        (inc.foldl mergeStep (d, n)).1 = d ++ ext ∧
          (∀ p ∈ ext, p.1 = p.2.id) ∧ (∀ p ∈ ext, keyMem d p.1 = false) := by
  intro inc
  induction inc with
  | nil => intro d n; exact ⟨[], by simp, by simp, by simp⟩
  | cons a inc ih =>
    intro d n
    rw [List.foldl_cons, mergeStep_eq]
    by_cases ha : keyMem d a.id
    · rw [if_pos ha]
      exact ih d n
    · rw [if_neg ha]
      obtain ⟨ext, he, hwf, hfresh⟩ := ih (d ++ [(a.id, a)]) (n + 1)
      refine ⟨(a.id, a) :: ext, ?_, ?_, ?_⟩
      · rw [he, List.append_assoc]
        rfl
      · intro p hp
        rcases List.mem_cons.mp hp with h | h
        · subst h; rfl
        · exact hwf p h
      · intro p hp
        rcases List.mem_cons.mp hp with h | h
        · subst h
          exact Bool.eq_false_iff.mpr ha
        · have h2 := hfresh p h
          rw [keyMem_append] at h2
          exact (Bool.or_eq_false_iff.mp h2).1

theorem foldl_mergeStep_count :
    ∀ (inc : List Article) (d : List (String × Article)) (n : Nat),
      (inc.foldl mergeStep (d, n)).2 =
        n + ((inc.map fun a => a.id).toFinset \ (d.map Prod.fst).toFinset).card := by
  intro inc
  induction inc with
  | nil => intro d n; simp
  | cons a inc ih =>
    intro d n
    rw [List.foldl_cons, mergeStep_eq]
    by_cases ha : keyMem d a.id
    · rw [if_pos ha, ih d n, List.map_cons, List.toFinset_cons]
      have haK : a.id ∈ (d.map Prod.fst).toFinset :=
        List.mem_toFinset.mpr ((keyMem_iff _ _).mp ha)
      rw [Finset.insert_sdiff_of_mem _ haK]
    · rw [if_neg ha, ih (d ++ [(a.id, a)]) (n + 1)]
      have hK : ((d ++ [(a.id, a)]).map Prod.fst).toFinset =
          insert a.id (d.map Prod.fst).toFinset := by
        ext y
        simp [List.map_append, or_comm]
      rw [hK, List.map_cons, List.toFinset_cons]
      have hna : a.id ∉ (d.map Prod.fst).toFinset := by
        rw [List.mem_toFinset]
        exact (keyMem_false_iff _ _).mp (Bool.eq_false_iff.mpr ha)
      have e1 : insert a.id (inc.map fun a => a.id).toFinset \ (d.map Prod.fst).toFinset =
          insert a.id ((inc.map fun a => a.id).toFinset \ (d.map Prod.fst).toFinset) := by
        ext y
        simp only [Finset.mem_sdiff, Finset.mem_insert]
        constructor
        · rintro ⟨hy | hy, hyk⟩
          · exact Or.inl hy
          · exact Or.inr ⟨hy, hyk⟩
        · rintro (hy | ⟨hy, hyk⟩)
          · exact ⟨Or.inl hy, hy ▸ hna⟩
          · exact ⟨Or.inr hy, hyk⟩
      have e2 : (inc.map fun a => a.id).toFinset \ insert a.id (d.map Prod.fst).toFinset =
          ((inc.map fun a => a.id).toFinset \ (d.map Prod.fst).toFinset).erase a.id :=
        Finset.sdiff_insert _ _ _
      rw [e1, e2]
      have e3 : (insert a.id ((inc.map fun a => a.id).toFinset \ (d.map Prod.fst).toFinset)).card =
          (((inc.map fun a => a.id).toFinset \ (d.map Prod.fst).toFinset).erase a.id).card + 1 := by
        rw [show insert a.id ((inc.map fun a => a.id).toFinset \ (d.map Prod.fst).toFinset) =
            insert a.id (((inc.map fun a => a.id).toFinset \ (d.map Prod.fst).toFinset).erase a.id) from by
          ext y
          simp only [Finset.mem_insert, Finset.mem_erase]
          constructor
          · rintro (hy | hy)
            · exact Or.inl hy
            · by_cases hya : y = a.id
              · exact Or.inl hya
              · exact Or.inr ⟨hya, hy⟩
          · rintro (hy | ⟨_, hy⟩)
            · exact Or.inl hy
            · exact Or.inr hy]
        exact Finset.card_insert_of_not_mem (Finset.not_mem_erase _ _)
      rw [e3]
      omega

theorem find?_id_of_nodup :
    ∀ (l : List Article) (a : Article), ((l.map fun b => b.id).Nodup) → a ∈ l →
      l.find? (fun b => b.id == a.id) = some a := by
  intro l
  induction l with
  | nil => intro a _ h; simp at h
  | cons b l ih =>
    intro a hnd ha
    rw [List.map_cons, List.nodup_cons] at hnd
    obtain ⟨hb, hndl⟩ := hnd
    rcases List.mem_cons.mp ha with h | h
    · subst h
      rw [List.find?_cons_of_pos _ (by simp)]
    · have hne : (b.id == a.id) = false := by
        rw [beq_eq_false_iff_ne]
        intro he
        exact hb (he ▸ List.mem_map_of_mem (fun x => x.id) h)
      rw [List.find?_cons_of_neg _ (by simp [hne])]
      exact ih a hndl h

theorem dictOf_wf :
    ∀ (l : List Article) (d : List (String × Article)),
      (∀ p ∈ d, p.1 = p.2.id) →
      ∀ p ∈ l.foldl (fun d a => dictSet d a.id a) d, p.1 = p.2.id := by
  intro l
  induction l with
  | nil => intro d h; exact h
  | cons a l ih =>
    intro d h
    rw [List.foldl_cons]
    apply ih
    intro p hp
    unfold dictSet at hp
    by_cases hk : keyMem d a.id
    · rw [if_pos hk] at hp
      rw [List.mem_map] at hp
      obtain ⟨q, hq, rfl⟩ := hp
      by_cases hq1 : q.1 = a.id
      · simp [hq1]
      · rw [if_neg (by simp [hq1])]
        exact h q hq
    · rw [if_neg hk] at hp
      rcases List.mem_append.mp hp with h1 | h2
      · exact h p h1
      · rw [List.mem_singleton] at h2
        subst h2
        rfl

theorem dictOf_keys_nodup :
    ∀ (l : List Article) (d : List (String × Article)),
      ((d.map Prod.fst).Nodup) →
      ((l.foldl (fun d a => dictSet d a.id a) d).map Prod.fst).Nodup := by
  intro l
  induction l with
  | nil => intro d h; exact h
  | cons a l ih =>
    intro d h
    rw [List.foldl_cons]
    apply ih
    by_cases hk : keyMem d a.id
    · rw [dictSet_fst_of_mem d a.id a hk]
      exact h
    · rw [dictSet_fst_of_not_mem d a.id a (Bool.eq_false_iff.mpr hk)]
      rw [List.nodup_append]
      refine ⟨h, List.nodup_singleton _, ?_⟩
      intro x hx hx2
      rw [List.mem_singleton] at hx2
      exact hk ((keyMem_iff d a.id).mpr (hx2 ▸ hx))

theorem mergeFold_wf :
    ∀ (inc : List Article) (d : List (String × Article)) (n : Nat),
      (∀ p ∈ d, p.1 = p.2.id) →
      ∀ p ∈ (inc.foldl mergeStep (d, n)).1, p.1 = p.2.id := by
  intro inc
  induction inc with
  | nil => intro d n h; exact h
  | cons a inc ih =>
    intro d n h
    rw [List.foldl_cons, mergeStep_eq]
    by_cases hk : keyMem d a.id
    · rw [if_pos hk]
      exact ih d n h
    · rw [if_neg hk]
      apply ih
      intro p hp
      rcases List.mem_append.mp hp with h1 | h2
      · exact h p h1
      · rw [List.mem_singleton] at h2
        subst h2
        rfl

theorem mergeFold_keys_nodup :
    ∀ (inc : List Article) (d : List (String × Article)) (n : Nat),
      ((d.map Prod.fst).Nodup) →
      (((inc.foldl mergeStep (d, n)).1).map Prod.fst).Nodup := by
  intro inc
  induction inc with
  | nil => intro d n h; exact h
  | cons a inc ih =>
    intro d n h
    rw [List.foldl_cons, mergeStep_eq]
    by_cases hk : keyMem d a.id
    · rw [if_pos hk]
      exact ih d n h
    · rw [if_neg hk]
      apply ih
      rw [List.map_append, List.nodup_append]
      refine ⟨h, List.nodup_singleton _, ?_⟩
      intro x hx hx2
      rw [show ([(a.id, a)].map Prod.fst) = [a.id] from rfl, List.mem_singleton] at hx2
      exact hk ((keyMem_iff d a.id).mpr (hx2 ▸ hx))

theorem mergeFold_mem_keys :
    ∀ (inc : List Article) (d : List (String × Article)) (n : Nat) (a : Article),
      a ∈ inc → keyMem ((inc.foldl mergeStep (d, n)).1) a.id = true := by
  intro inc
  induction inc with
  | nil => intro d n a ha; simp at ha
  | cons b inc ih =>
    intro d n a ha
    rw [List.foldl_cons, mergeStep_eq]
    rcases List.mem_cons.mp ha with h | h
    · subst h
      by_cases hk : keyMem d a.id
      · rw [if_pos hk]
        obtain ⟨ext, he, _, _⟩ := foldl_mergeStep_append inc d n
        rw [he, keyMem_append, hk]
        rfl
      · rw [if_neg hk]
        obtain ⟨ext, he, _, _⟩ := foldl_mergeStep_append inc (d ++ [(a.id, a)]) (n + 1)
        rw [he, keyMem_append, keyMem_append]
        have : keyMem [(a.id, a)] a.id = true := by simp [keyMem]
        rw [this]
        simp
    · by_cases hk : keyMem d b.id
      · rw [if_pos hk]
        exact ih d n a h
      · rw [if_neg hk]
        exact ih (d ++ [(b.id, b)]) (n + 1) a h

theorem mergeFold_noop :
    ∀ (inc : List Article) (d : List (String × Article)) (n : Nat),
      (∀ a ∈ inc, keyMem d a.id = true) → inc.foldl mergeStep (d, n) = (d, n) := by
  intro inc
  induction inc with
  | nil => intro d n _; rfl
  | cons a inc ih =>
    intro d n h
    rw [List.foldl_cons, mergeStep_eq, if_pos (h a (List.mem_cons_self _ _))]
    exact ih d n (fun b hb => h b (List.mem_cons_of_mem _ hb))

theorem map_pair_snd (d : List (String × Article)) (h : ∀ p ∈ d, p.1 = p.2.id) :
    (d.map Prod.snd).map (fun a => (a.id, a)) = d := by
  rw [List.map_map]
  have e : ∀ p ∈ d, ((fun a => ((a.id, a) : String × Article)) ∘ Prod.snd) p = id p :=
    fun p hp => Prod.ext ((h p hp).symm) rfl
  rw [List.map_congr_left e, List.map_id]

theorem map_snd_ids (d : List (String × Article)) (h : ∀ p ∈ d, p.1 = p.2.id) :
    (d.map Prod.snd).map (fun a => a.id) = d.map Prod.fst := by
  rw [List.map_map]
  exact List.map_congr_left (fun p hp => (h p hp).symm)

/-! ## Claims C3 and C4 (merge) -/

/-- C3: on a store with pairwise-distinct ids, the merge keeps every
existing record unchanged (lookup by its id still returns it, even when an
incoming record carries the same id with different content), and the
returned count is exactly the number of distinct incoming ids not already
present in the store. -/
theorem claim_C3 (existing incoming : List Article)
    (hnd : ((existing.map fun a => a.id).Nodup)) :
    (∀ a ∈ existing,
        (merge existing incoming).1.find? (fun b => b.id == a.id) = some a) ∧
      (merge existing incoming).2 =
        ((incoming.map fun a => a.id).toFinset \
          (existing.map fun a => a.id).toFinset).card := by
  have hdict : dictOf existing = existing.map fun a => (a.id, a) :=
    dictOf_of_nodup existing hnd
  constructor
  · intro a ha
    obtain ⟨ext, he, hwf, hfresh⟩ := foldl_mergeStep_append incoming (dictOf existing) 0
    have hm1 : (merge existing incoming).1 =
        ((incoming.foldl mergeStep (dictOf existing, 0)).1).map Prod.snd := rfl
    rw [hm1, he, hdict, List.map_append]
    have hmm : ((existing.map fun a => (a.id, a)).map Prod.snd) = existing := by
      rw [List.map_map]
      rw [show (Prod.snd ∘ fun a => ((a.id, a) : String × Article)) = id from rfl]
      exact List.map_id existing
    rw [hmm, List.find?_append, find?_id_of_nodup existing a hnd ha]
    rfl
  · have hm2 : (merge existing incoming).2 =
        (incoming.foldl mergeStep (dictOf existing, 0)).2 := rfl
    rw [hm2, foldl_mergeStep_count incoming (dictOf existing) 0, hdict, List.map_map]
    have he : (Prod.fst ∘ fun a => ((a.id, a) : String × Article)) = fun a => a.id := rfl
    rw [he]
    simp

/-- C3 witness: concrete merge where the incoming list reuses id `a1` with
different content and brings one new id; the old record survives and the
count is 1. -/
theorem claim_C3_witness :
    (merge [articleA] [⟨"a1", "Different", "Polska"⟩, articleB]).1.find?
        (fun b => b.id == articleA.id) = some articleA ∧
      (merge [articleA] [⟨"a1", "Different", "Polska"⟩, articleB]).2 = 1 := by
  have h := claim_C3 [articleA] [⟨"a1", "Different", "Polska"⟩, articleB] (by decide)
  refine ⟨h.1 articleA (by decide), ?_⟩
  rw [h.2]
  decide

/-- C4: merging the same extraction result a second time into the merged
store changes nothing and reports an added count of 0. -/
theorem claim_C4 (s e : List Article) :
    merge (merge s e).1 e = ((merge s e).1, 0) := by
  have hwf0 : ∀ p ∈ dictOf s, p.1 = p.2.id := dictOf_wf s [] (by simp)
  have hnd0 : ((dictOf s).map Prod.fst).Nodup := dictOf_keys_nodup s [] (by simp)
  have hwf1 : ∀ p ∈ (e.foldl mergeStep (dictOf s, 0)).1, p.1 = p.2.id :=
    mergeFold_wf e (dictOf s) 0 hwf0
  have hnd1 : (((e.foldl mergeStep (dictOf s, 0)).1).map Prod.fst).Nodup :=
    mergeFold_keys_nodup e (dictOf s) 0 hnd0
  have hM : (merge s e).1 = ((e.foldl mergeStep (dictOf s, 0)).1).map Prod.snd := rfl
  have hids : (((merge s e).1).map fun a => a.id).Nodup := by
    rw [hM, map_snd_ids _ hwf1]
    exact hnd1
  have hdict2 : dictOf ((merge s e).1) = (e.foldl mergeStep (dictOf s, 0)).1 := by
    rw [dictOf_of_nodup _ hids, hM, map_pair_snd _ hwf1]
  have hpres : ∀ a ∈ e, keyMem ((e.foldl mergeStep (dictOf s, 0)).1) a.id = true :=
    fun a ha => mergeFold_mem_keys e (dictOf s) 0 a ha
  have hm : merge ((merge s e).1) e =
      (((e.foldl mergeStep (dictOf ((merge s e).1), 0)).1).map Prod.snd,
        (e.foldl mergeStep (dictOf ((merge s e).1), 0)).2) := rfl
  rw [hm, hdict2, mergeFold_noop e _ 0 hpres, ← hM]

/-! ## Claims C1, C2, C10 (digest job) and C7 (atomic save) -/

/-- Case characterization of the digest job: it reaches the send attempt
exactly when the Saturday guard, the freshness gate and the non-empty-store
gate all pass, and otherwise returns the untouched no-send result. -/
theorem send_weekly_summary_eq (inp : JobInput) :
    send_weekly_summary inp =
      if inp.weekday = 5 ∧ scrapeFreshOk inp.scrapeState inp.now = true ∧ inp.data ≠ [] then
        match inp.outcome with
        | SendOutcome.success => ⟨[], true, true, true, some (renderEmail inp.data)⟩
        | SendOutcome.authFailure =>
            ⟨inp.data, false, true, false, some (renderEmail inp.data)⟩
        | SendOutcome.otherFailure =>
            ⟨inp.data, false, true, false, some (renderEmail inp.data)⟩
      else noSend inp.data := by
  obtain ⟨wd, st, now, data, mail, outc⟩ := inp
  unfold send_weekly_summary
  dsimp only
  by_cases h1 : wd ≠ 5
  · rw [if_pos h1, if_neg (fun hc => h1 hc.1)]
  · have h5 : wd = 5 := not_not.mp h1
    rw [if_neg h1]
    cases st with
    | absent =>
      have hcond : ¬ (wd = 5 ∧ scrapeFreshOk ScrapeState.absent now = true ∧ data ≠ []) := by
        rintro ⟨_, hf, _⟩
        simp [scrapeFreshOk] at hf
      rw [if_neg hcond]
    | unparseable =>
      have hcond : ¬ (wd = 5 ∧ scrapeFreshOk ScrapeState.unparseable now = true ∧ data ≠ []) := by
        rintro ⟨_, hf, _⟩
        simp [scrapeFreshOk] at hf
      rw [if_neg hcond]
    | parsed t =>
      dsimp only
      by_cases h2 : t < now - 7 * 86400
      · have hcond : ¬ (wd = 5 ∧ scrapeFreshOk (ScrapeState.parsed t) now = true ∧ data ≠ []) := by
          rintro ⟨_, hf, _⟩
          dsimp only [scrapeFreshOk] at hf
          rw [if_pos h2] at hf
          exact Bool.false_ne_true hf
        rw [if_pos h2, if_neg hcond]
      · by_cases h3 : data.isEmpty = true
        · have hd : data = [] := List.isEmpty_iff.mp h3
          have hcond : ¬ (wd = 5 ∧ scrapeFreshOk (ScrapeState.parsed t) now = true ∧ data ≠ []) := by
            rintro ⟨_, _, hne⟩
            exact hne hd
          rw [if_neg h2, if_pos h3, if_neg hcond]
        · have hd : data ≠ [] := by
            intro he
            exact h3 (by rw [he]; rfl)
          have hcond : wd = 5 ∧ scrapeFreshOk (ScrapeState.parsed t) now = true ∧ data ≠ [] := by
            refine ⟨h5, ?_, hd⟩
            dsimp only [scrapeFreshOk]
            rw [if_neg h2]
          rw [if_neg h2, if_neg h3, if_pos hcond]

/-- C1: whenever the digest job reaches the send attempt, the persisted
store ends empty exactly when the send succeeded; on any failure — the
authentication error included — nothing is written and the store keeps its
previous contents. -/
theorem claim_C1 (inp : JobInput)
    (h : (send_weekly_summary inp).sendAttempted = true) :
    ((send_weekly_summary inp).dataAfter = [] ↔ inp.outcome = SendOutcome.success) ∧
      (inp.outcome ≠ SendOutcome.success →
        (send_weekly_summary inp).dataAfter = inp.data ∧
          (send_weekly_summary inp).wrote = false) := by
  obtain ⟨wd, st, now, data, mail, outc⟩ := inp
  rw [send_weekly_summary_eq] at h ⊢
  dsimp only at h ⊢
  by_cases hc : wd = 5 ∧ scrapeFreshOk st now = true ∧ data ≠ []
  · rw [if_pos hc] at h ⊢
    cases outc with
    | success => exact ⟨by simp, fun hne => absurd rfl hne⟩
    | authFailure =>
      exact ⟨⟨fun he => absurd he hc.2.2, fun hs => SendOutcome.noConfusion hs⟩,
        fun _ => ⟨rfl, rfl⟩⟩
    | otherFailure =>
      exact ⟨⟨fun he => absurd he hc.2.2, fun hs => SendOutcome.noConfusion hs⟩,
        fun _ => ⟨rfl, rfl⟩⟩
  · rw [if_neg hc] at h
    exact absurd h (by simp [noSend])

/-- C1 witness: the authentication-failure run on a populated store leaves
the store unchanged and unwritten. -/
theorem claim_C1_witness :
    ((send_weekly_summary inputAuthFail).dataAfter = [] ↔
        inputAuthFail.outcome = SendOutcome.success) ∧
      (inputAuthFail.outcome ≠ SendOutcome.success →
        (send_weekly_summary inputAuthFail).dataAfter = inputAuthFail.data ∧
          (send_weekly_summary inputAuthFail).wrote = false) :=
  claim_C1 inputAuthFail (by decide)

/-- C2 counterexample: with an entirely missing mail configuration but all
other gates open, the job still reaches the send attempt — the claimed
mail-configuration precondition is never checked, so the job does not abort
before attempting the send. -/
theorem claim_C2_counterexample :
    mailConfigComplete inputNoMail.mail = false ∧
      (send_weekly_summary inputNoMail).sendAttempted = true ∧
      (send_weekly_summary inputNoMail).sent = false := by
  refine ⟨by decide, by decide, by decide⟩

/-- C2 (amended): the job checks three preconditions — Saturday guard,
freshness of the last successful scrape (present, parseable and at most 7
days old), and non-empty store — and reaches the send attempt exactly when
all three hold; when any fails the job aborts having written nothing and
attempted nothing.  Mail-configuration completeness is not among the checks. -/
theorem claim_C2_amended (inp : JobInput) :
    ((send_weekly_summary inp).sendAttempted = true ↔
        (inp.weekday = 5 ∧ scrapeFreshOk inp.scrapeState inp.now = true ∧ inp.data ≠ [])) ∧
      ((send_weekly_summary inp).sendAttempted = false →
        send_weekly_summary inp = noSend inp.data) := by
  obtain ⟨wd, st, now, data, mail, outc⟩ := inp
  rw [send_weekly_summary_eq]
  dsimp only
  by_cases hc : wd = 5 ∧ scrapeFreshOk st now = true ∧ data ≠ []
  · rw [if_pos hc]
    refine ⟨⟨fun _ => hc, fun _ => ?_⟩, fun hfalse => ?_⟩
    · cases outc <;> rfl
    · cases outc <;> exact Bool.noConfusion hfalse
  · rw [if_neg hc]
    exact ⟨⟨fun hfalse => absurd hfalse (by simp [noSend]), fun hcc => absurd hcc hc⟩,
      fun _ => rfl⟩

/-- C2 witness: the missing-mail-configuration run passes the three actual
gates and attempts the send; the Wednesday run aborts untouched. -/
theorem claim_C2_witness :
    (send_weekly_summary inputNoMail).sendAttempted = true ∧
      send_weekly_summary inputNotSaturday = noSend inputNotSaturday.data := by
  constructor
  · exact ((claim_C2_amended inputNoMail).1).mpr (by decide)
  · exact (claim_C2_amended inputNotSaturday).2 (by decide)

/-- C10: the rendered digest only ever shows the two hardcoded sections —
appending a record of any other category leaves the body unchanged — yet a
successful send clears the whole store, that record included. -/
theorem claim_C10 (data : List Article) (r : Article) (inp : JobInput)
    (hr : (r.category == "Polska" || r.category == "Świat") = false) :
    renderEmail (data ++ [r]) = renderEmail data ∧
      ((send_weekly_summary inp).sent = true →
        (send_weekly_summary inp).dataAfter = []) := by
  constructor
  · obtain ⟨hp, hs⟩ := Bool.or_eq_false_iff.mp hr
    have hsec : ∀ cat : String, (r.category == cat) = false →
        sectionHtml (data ++ [r]) cat = sectionHtml data cat := by
      intro cat hc
      unfold sectionHtml
      rw [List.filter_append]
      rw [show List.filter (fun a => a.category == cat) [r] = [] from by
        simp [List.filter, hc]]
      rw [List.append_nil]
    unfold renderEmail
    rw [hsec "Polska" hp, hsec "Świat" hs]
  · obtain ⟨wd, st, now, data2, mail, outc⟩ := inp
    rw [send_weekly_summary_eq]
    dsimp only
    by_cases hc : wd = 5 ∧ scrapeFreshOk st now = true ∧ data2 ≠ []
    · rw [if_pos hc]
      cases outc with
      | success => exact fun _ => rfl
      | authFailure => exact fun hs => Bool.noConfusion hs
      | otherFailure => exact fun hs => Bool.noConfusion hs
    · rw [if_neg hc]
      exact fun hs => absurd hs (by simp [noSend])

/-- C10 witness: a `Pozytywy` record adds nothing to the rendered body, and
the successful run ends with the empty store. -/
theorem claim_C10_witness :
    renderEmail ([articleA, articleB] ++ [articleOther]) = renderEmail [articleA, articleB] ∧
      (send_weekly_summary inputSuccess).dataAfter = [] := by
  have h := claim_C10 [articleA, articleB] articleOther inputSuccess (by decide)
  exact ⟨h.1, h.2 (by decide)⟩

/-- C7: every state a crash during `save_data` can expose keeps the
canonical file equal to the previously committed serialization until the
atomic replace, which installs the complete new serialization — the
canonical path never holds a torn file. -/
theorem claim_C7 (fs : FS) (data old : List Article)
    (h : fs.dataFile = some (FileContent.written old)) :
    (∀ s ∈ save_data fs data,
        s.dataFile = some (FileContent.written old) ∨
          s.dataFile = some (FileContent.written data)) ∧
      (∀ s ∈ (save_data fs data).dropLast,
        s.dataFile = some (FileContent.written old)) ∧
      (save_data fs data).getLast? =
        some ⟨some (FileContent.written data), none⟩ := by
  refine ⟨?_, ?_, rfl⟩
  · intro s hs
    unfold save_data at hs
    rcases List.mem_cons.mp hs with h1 | hs
    · subst h1
      left
      exact h
    rcases List.mem_cons.mp hs with h2 | hs
    · subst h2
      left
      exact h
    rcases List.mem_cons.mp hs with h3 | hs
    · subst h3
      right
      rfl
    · simp at hs
  · intro s hs
    unfold save_data at hs
    rw [show ([{ fs with tmpFile := some FileContent.torn },
        { fs with tmpFile := some (FileContent.written data) },
        ({ dataFile := some (FileContent.written data), tmpFile := none } : FS)]).dropLast =
        [{ fs with tmpFile := some FileContent.torn },
          { fs with tmpFile := some (FileContent.written data) }] from rfl] at hs
    rcases List.mem_cons.mp hs with h1 | hs
    · subst h1
      exact h
    rcases List.mem_cons.mp hs with h2 | hs
    · subst h2
      exact h
    · simp at hs

/-- C7 witness: saving over a committed store, the last trace state holds
the new serialization while the mid-write state still exposes the old
one. -/
theorem claim_C7_witness :
    (save_data fsCommitted [articleB]).getLast? =
        some ⟨some (FileContent.written [articleB]), none⟩ ∧
      ({ fsCommitted with tmpFile := some FileContent.torn } : FS).dataFile =
        some (FileContent.written [articleA]) := by
  have h := claim_C7 fsCommitted [articleB] [articleA] rfl
  exact ⟨h.2.2, h.2.1 _ (by decide)⟩

end Infopigula
